import Mathlib

/-!
Shallow embedding of the Lab02 mix-network code (Lab02Mix/Lab02Code.py).

Bytes are modelled as natural numbers (values below 256 in honest data).
The elliptic-curve group of petlib is modelled as the additive group of
integers modulo a fixed group order: a point is a natural number below
`gOrder`, the generator is `gen`, and scalar multiplication of a point by
a scalar is multiplication modulo `gOrder`.  Scalars (petlib `Bn` values)
are plain natural numbers; `Bn` multiplication is plain multiplication
(petlib does not reduce `Bn * Bn` modulo the order, and neither do we).

SHA-512 is modelled by a deterministic 64-byte digest built from a
multiplicative accumulator modulo `hashMod`; the first 20 digest bytes
encode the accumulator injectively, which reflects (in an ideal-hash
style) that changing a single input byte changes the truncated digest.
AES-CTR is modelled as XOR with a keystream that depends only on the key,
the IV and the length, which gives the self-inverse property the source
relies on.  HMAC is modelled as a keyed digest of the concatenated
updates.  The client encoders take the ephemeral private scalar (drawn
from the system randomness source in the Python code) as an explicit
argument.

The Python functions raise exceptions; the embedding returns
`Except PyError` values, and an error raised while processing one message
of a batch propagates out of the whole batch call, exactly as an uncaught
Python exception does.  The `print` calls of the source are modelled by a
trace of `Printed` values returned next to the result.
-/

set_option maxRecDepth 8192

namespace MixNet

/-- Order of the modelled elliptic-curve group. -/
def gOrder : Nat := 7919

/-- Generator of the modelled group (`G.generator()`). -/
def gen : Nat := 2

/-- `G.check_point`: validity of a point encoding in the model. -/
def checkPoint (p : Nat) : Bool := decide (p < gOrder)

/-- Modulus of the toy hash accumulator. -/
def hashMod : Nat := 1000003

/-- One absorption step of the toy hash. -/
def hashStep (a b : Nat) : Nat := (a * 269 + b + 7) % hashMod

/-- Hash accumulator over a byte list. -/
def hashOf (l : List Nat) : Nat := l.foldl hashStep 5381

/-- Fixed-width little-endian byte encoding of a natural number. -/
def leBytes : Nat → Nat → List Nat
  | 0, _ => []
  | w + 1, v => v % 256 :: leBytes w (v / 256)

/-- Model of `hashlib.sha512(...).digest()`: a 64-byte digest.  The first
20 bytes encode the hash accumulator injectively. -/
def sha512 (input : List Nat) : List Nat :=
  leBytes 20 (hashOf input) ++
    (List.range 44).map (fun i => (hashOf input + (i + 3) * (i + 11)) % 256)

/-- Model of `Hmac(b"sha512", key)` applied to the concatenation of the
updated parts, returning the full 64-byte digest. -/
def hmacDigest (key data : List Nat) : List Nat :=
  sha512 (key ++ [92] ++ data ++ [54] ++ key)

/-- Keystream of the modelled AES-128-CTR cipher: depends only on the
key, the IV and the requested length. -/
def keystream (key iv : List Nat) (n : Nat) : List Nat :=
  (List.range n).map (fun i => (hashOf (key ++ iv) + 101 * i + i * i) % 256)

/-- `aes_ctr_enc_dec(key, iv, input)`: XOR of the input with the
keystream; encryption and decryption are the same operation. -/
def aes_ctr_enc_dec (key iv input : List Nat) : List Nat :=
  List.zipWith (fun a b => a ^^^ b) input (keystream key iv input.length)

/-- `Bn.from_binary`: big-endian interpretation of a byte string. -/
def bytesToNat (l : List Nat) : Nat := l.foldl (fun a b => a * 256 + b) 0

/-- Serialized size of an exported group element in the model. -/
def point_size : Nat := 25

/-- `point.export()`: fixed-width serialization of a group element. -/
def pointExport (p : Nat) : List Nat := leBytes point_size p

/-- `sha512(shared_element.export()).digest()`: the per-hop key material. -/
def keyMaterialOf (shared_element : Nat) : List Nat :=
  sha512 (pointExport shared_element)

/-- `pack("!H", n) ++ pack(ws, s)`: 2-byte big-endian length prefix
followed by the string padded (or truncated) to `w` bytes, as
`pack("!H256s", n, s)` and `pack("!H1000s", n, s)` do. -/
def packH (w n : Nat) (s : List Nat) : List Nat :=
  n / 256 % 256 :: n % 256 :: (s.take w ++ List.replicate (w - s.length) 0)

/-- `unpack("!H256s", p)` / `unpack("!H1000s", p)`: read the 2-byte
big-endian length prefix and the `w`-byte field. -/
def unpackH (w : Nat) (p : List Nat) : Nat × List Nat :=
  (p.getD 0 0 * 256 + p.getD 1 0, (p.drop 2).take w)

/-- `pack("H14s", i, b"\x00"*14)`: the positional IV used for the MAC
list (native byte order, little-endian on the reference platform). -/
def packHIv (i : Nat) : List Nat :=
  i % 256 :: i / 256 % 256 :: List.replicate 14 0

/-- The all-zero 16-byte IV `b"\x00"*16`. -/
def iv0 : List Nat := List.replicate 16 0

/-- Value of a little-endian byte list (left inverse of `leBytes`, used
to show the truncated digest determines the hash accumulator). -/
def ofLeBytes : List Nat → Nat
  | [] => 0
  | b :: bs => b + 256 * ofLeBytes bs

/-- The Python exceptions that the decoding and encoding paths can raise:
the two explicit `Exception(...)` raises of the source, the `IndexError`
that `msg.hmacs[0]` raises on an empty list, and failures of the
`assert` statements of the clients. -/
inductive PyError where
  | malformedMessage
  | macFailure
  | indexError
  | assertFailed
deriving DecidableEq

/-- Values written to standard output by the `print` calls of the
source: a bare number, a byte string, or a list of byte strings. -/
inductive Printed where
  | num (n : Nat)
  | mac (m : List Nat)
  | macList (ms : List (List Nat))
deriving DecidableEq

/-- `OneHopMixMessage`. -/
structure OneHopMixMessage where
  ec_public_key : Nat
  hmac : List Nat
  address : List Nat
  message : List Nat
deriving DecidableEq

/-- `NHopMixMessage`. -/
structure NHopMixMessage where
  ec_public_key : Nat
  hmacs : List (List Nat)
  address : List Nat
  message : List Nat
deriving DecidableEq

/-- Output of one n-hop relay step: either a message forwarded to the
next mix or a decoded (address, message) pair delivered at the exit. -/
inductive MixOut where
  | fwd (m : NHopMixMessage)
  | deliver (address message : List Nat)
deriving DecidableEq

/-- Byte-string comparison, as Python compares `bytes` values. -/
def bytesCmp : List Nat → List Nat → Ordering
  | [], [] => .eq
  | [], _ :: _ => .lt
  | _ :: _, [] => .gt
  | a :: as, b :: bs => if a < b then .lt else if b < a then .gt else bytesCmp as bs

/-- Lexicographic order on decoded (address, message) pairs, as Python's
`sorted` orders tuples of `bytes`. -/
def pairLe (p1 p2 : (List Nat × List Nat)) : Bool :=
  match bytesCmp p1.1 p2.1 with
  | .lt => true
  | .gt => false
  | .eq =>
    match bytesCmp p1.2 p2.2 with
    | .gt => false
    | _ => true

/-- Decoding of a single message inside the loop of
`mix_server_one_hop` (lines 70-108). -/
def serverOneHopMsg (private_key : Nat) (msg : OneHopMixMessage) :
    Except PyError (List Nat × List Nat) :=
  if msg.ec_public_key < gOrder ∧ msg.hmac.length = 20 ∧
      msg.address.length = 258 ∧ msg.message.length = 1002 then
    let shared_element := private_key * msg.ec_public_key % gOrder
    let key_material := keyMaterialOf shared_element
    let hmac_key := key_material.take 16
    let address_key := (key_material.drop 16).take 16
    let message_key := (key_material.drop 32).take 16
    let expected_mac := hmacDigest hmac_key (msg.address ++ msg.message)
    if msg.hmac = expected_mac.take 20 then
      let address_plaintext := aes_ctr_enc_dec address_key iv0 msg.address
      let message_plaintext := aes_ctr_enc_dec message_key iv0 msg.message
      let a := unpackH 256 address_plaintext
      let m := unpackH 1000 message_plaintext
      .ok (a.2.take a.1, m.2.take m.1)
    else .error .macFailure
  else .error .malformedMessage

/-- Sequential processing of a batch where the per-message function can
raise: the first raised exception propagates and aborts the batch, as an
uncaught exception inside the `for` loop of the servers does. -/
def exceptMap {α β : Type} (f : α → Except PyError β) : List α → Except PyError (List β)
  | [] => .ok []
  | x :: xs =>
    match f x with
    | .error e => .error e
    | .ok y =>
      match exceptMap f xs with
      | .error e => .error e
      | .ok ys => .ok (y :: ys)

/-- `mix_server_one_hop` (lines 56-110): decode every message of the
batch in turn and return the decoded pairs sorted by Python's `sorted`. -/
def mix_server_one_hop (private_key : Nat) (message_list : List OneHopMixMessage) :
    Except PyError (List (List Nat × List Nat)) :=
  match exceptMap (serverOneHopMsg private_key) message_list with
  | .error e => .error e
  | .ok out_queue => .ok (out_queue.mergeSort pairLe)

/-- `mix_client_one_hop` (lines 113-158), with the ephemeral private
scalar passed explicitly.  The `assert` statements become the
`assertFailed` error. -/
def mix_client_one_hop (private_key public_key : Nat) (address message : List Nat) :
    Except PyError OneHopMixMessage :=
  if public_key < gOrder ∧ address.length ≤ 256 ∧ message.length ≤ 1000 then
    let address_plaintext := packH 256 address.length address
    let message_plaintext := packH 1000 message.length message
    let client_public_key := private_key * gen % gOrder
    let shared_element := public_key * private_key % gOrder
    let key_material := keyMaterialOf shared_element
    let hmac_key := key_material.take 16
    let address_key := (key_material.drop 16).take 16
    let message_key := (key_material.drop 32).take 16
    let address_cipher := aes_ctr_enc_dec address_key iv0 address_plaintext
    let message_cipher := aes_ctr_enc_dec message_key iv0 message_plaintext
    let expected_mac := (hmacDigest hmac_key (address_cipher ++ message_cipher)).take 20
    .ok ⟨client_public_key, expected_mac, address_cipher, message_cipher⟩
  else .error .assertFailed

/-- Per-index re-encryption of the MAC list (`for i, other_mac in
enumerate(...)`) with the positional IV `pack("H14s", i, ...)`, shared
by lines 234-240 of the server and lines 329-337 of the client. -/
def encMacs (hmac_key : List Nat) : Nat → List (List Nat) → List (List Nat)
  | _, [] => []
  | i, m :: ms => aes_ctr_enc_dec hmac_key (packHIv i) m :: encMacs hmac_key (i + 1) ms

/-- Processing of one message inside the loop of `mix_server_n_hop`
(lines 192-258), together with the list of values printed while
processing it (`print('Server: ', expected_mac[:20])`, line 226).
An empty `msg.hmacs` makes the Python expression `msg.hmacs[0]` raise
`IndexError` before the length comparison happens. -/
def serverNHopMsg (private_key : Nat) (final : Bool) (msg : NHopMixMessage) :
    List Printed × Except PyError MixOut :=
  if msg.ec_public_key < gOrder then
    match msg.hmacs with
    | [] => ([], .error .indexError)
    | mac0 :: rest =>
      if mac0.length = 20 ∧ msg.address.length = 258 ∧ msg.message.length = 1002 then
        let shared_element := private_key * msg.ec_public_key % gOrder
        let key_material := keyMaterialOf shared_element
        let hmac_key := key_material.take 16
        let address_key := (key_material.drop 16).take 16
        let message_key := (key_material.drop 32).take 16
        let blinding_factor := bytesToNat (key_material.drop 48)
        let new_ec_public_key := blinding_factor * msg.ec_public_key % gOrder
        let expected_mac := hmacDigest hmac_key (rest.flatten ++ msg.address ++ msg.message)
        if mac0 = expected_mac.take 20 then
          let new_hmacs := encMacs hmac_key 0 rest
          let address_plaintext := aes_ctr_enc_dec address_key iv0 msg.address
          let message_plaintext := aes_ctr_enc_dec message_key iv0 msg.message
          if final then
            let a := unpackH 256 address_plaintext
            let m := unpackH 1000 message_plaintext
            ([Printed.mac (expected_mac.take 20)],
              .ok (.deliver (a.2.take a.1) (m.2.take m.1)))
          else
            ([Printed.mac (expected_mac.take 20)],
              .ok (.fwd ⟨new_ec_public_key, new_hmacs, address_plaintext, message_plaintext⟩))
        else ([Printed.mac (expected_mac.take 20)], .error .macFailure)
      else ([], .error .malformedMessage)
  else ([], .error .malformedMessage)

/-- The truncated MAC that `mix_server_n_hop` recomputes for a message:
the HMAC, under the key derived from the relay private key and the
message public key, of the tail of the MAC list followed by the address
and message ciphertexts (lines 202-224), truncated to 20 bytes. -/
def serverExpectedMac (private_key : Nat) (msg : NHopMixMessage) : List Nat :=
  (hmacDigest ((keyMaterialOf (private_key * msg.ec_public_key % gOrder)).take 16)
    (msg.hmacs.tail.flatten ++ msg.address ++ msg.message)).take 20

/-- Sequential batch processing with a print trace: the trace contains
everything printed up to (and including) the message on which an
exception is raised; the exception aborts the batch. -/
def runBatch {α β : Type} (f : α → List Printed × Except PyError β) :
    List α → List Printed × Except PyError (List β)
  | [] => ([], .ok [])
  | x :: xs =>
    match f x with
    | (t, .error e) => (t, .error e)
    | (t, .ok y) =>
      match runBatch f xs with
      | (ts, .error e) => (t ++ ts, .error e)
      | (ts, .ok ys) => (t ++ ts, .ok (y :: ys))

/-- `mix_server_n_hop` (lines 175-260): trace of printed values and
result. -/
def mix_server_n_hop (private_key : Nat) (message_list : List NHopMixMessage)
    (final : Bool) : List Printed × Except PyError (List MixOut) :=
  runBatch (serverNHopMsg private_key final) message_list

/-- Phase 1 of `mix_client_n_hop` (lines 285-302): the per-hop key
materials, iterating through the relay public keys while chaining the
private scalar with the blinding factor (`new_ec_private_key =
blinding_factor * private_keys[i]`, plain `Bn` multiplication). -/
def key_materials_from (private_key : Nat) : List Nat → List (List Nat)
  | [] => []
  | hop_public_key :: rest =>
    let key_material := keyMaterialOf (private_key * hop_public_key % gOrder)
    key_material ::
      key_materials_from (bytesToNat (key_material.drop 48) * private_key) rest

/-- The successive private scalars `private_keys` accumulated by phase 1
of `mix_client_n_hop`: `private_keys[0]` is the ephemeral scalar and
`private_keys[i+1] = blinding_factor_i * private_keys[i]`. -/
def private_keys_from (private_key : Nat) : List Nat → List Nat
  | [] => [private_key]
  | hop_public_key :: rest =>
    let key_material := keyMaterialOf (private_key * hop_public_key % gOrder)
    private_key ::
      private_keys_from (bytesToNat (key_material.drop 48) * private_key) rest

/-- The public key carried by the message as each relay evolves it:
relay `i` holding `relay_priv_i` receives `p_i` and forwards
`new_ec_public_key = blinding_factor_i * p_i` (lines 203-213), where the
blinding factor comes from the relay-side key material. -/
def server_pub_chain (p : Nat) : List Nat → List Nat
  | [] => [p]
  | relay_priv :: rest =>
    let key_material := keyMaterialOf (relay_priv * p % gOrder)
    p :: server_pub_chain (bytesToNat (key_material.drop 48) * p % gOrder) rest

/-- The evolving state of phase 2 of `mix_client_n_hop`: the current
address and message ciphertexts and the accumulated MAC list. -/
structure ClientState where
  address_cipher : List Nat
  message_cipher : List Nat
  hmacs : List (List Nat)
deriving DecidableEq

/-- One iteration of the reversed loop of `mix_client_n_hop` (lines
313-346): wrap the address and message ciphertexts, re-encrypt the MACs
accumulated for the later hops with the positional IVs, MAC the result
and prepend the new MAC. -/
def clientLayer (key_material : List Nat) (st : ClientState) : ClientState :=
  let hmac_key := key_material.take 16
  let address_key := (key_material.drop 16).take 16
  let message_key := (key_material.drop 32).take 16
  let address_cipher := aes_ctr_enc_dec address_key iv0 st.address_cipher
  let message_cipher := aes_ctr_enc_dec message_key iv0 st.message_cipher
  let new_hmacs := encMacs hmac_key 0 st.hmacs
  let expected_mac :=
    (hmacDigest hmac_key (new_hmacs.flatten ++ address_cipher ++ message_cipher)).take 20
  ⟨address_cipher, message_cipher, expected_mac :: new_hmacs⟩

/-- The reversed loop of phase 2 of `mix_client_n_hop`, with the print
trace: the layer for the last hop is applied first, and each iteration
prints `len(key_materials) - i - 1` (line 327). -/
def clientLayersT : List (List Nat) → ClientState → ClientState × List Printed
  | [], st => (st, [])
  | key_material :: rest, st =>
    let inner := clientLayersT rest st
    (clientLayer key_material inner.1, inner.2 ++ [Printed.num rest.length])

/-- The pure part of the reversed loop of phase 2. -/
def clientLayers : List (List Nat) → ClientState → ClientState
  | [], st => st
  | key_material :: rest, st => clientLayer key_material (clientLayers rest st)

/-- The client encoder's initial state: the two packed plaintext
envelopes and an empty MAC list (lines 277-278 and 304-308). -/
def baseState (address message : List Nat) : ClientState :=
  ⟨packH 256 address.length address, packH 1000 message.length message, []⟩

/-- `mix_client_n_hop` (lines 262-349), with the ephemeral private
scalar passed explicitly: print trace plus the encoded message.  The
relay public keys are not checked (`assert G.check_point` is commented
out at line 270); only the address and message sizes are asserted. -/
def mix_client_n_hop (private_key : Nat) (public_keys : List Nat)
    (address message : List Nat) :
    List Printed × Except PyError NHopMixMessage :=
  if address.length ≤ 256 ∧ message.length ≤ 1000 then
    let client_public_key := private_key * gen % gOrder
    let key_materials := key_materials_from private_key public_keys
    let out := clientLayersT key_materials (baseState address message)
    (out.2 ++ [Printed.macList out.1.hmacs],
      .ok ⟨client_public_key, out.1.hmacs, out.1.address_cipher, out.1.message_cipher⟩)
  else ([], .error .assertFailed)

/-- A concrete example: the client wrap of address `[66]`, message `[1]`
for the single-relay cascade with relay private scalar 11 and client
ephemeral scalar 5. -/
def exampleWrap : ClientState :=
  clientLayers (key_materials_from 5 [11 * gen % gOrder]) (baseState [66] [1])

/-- The corresponding wire message. -/
def exampleNMsg : NHopMixMessage :=
  ⟨5 * gen % gOrder, exampleWrap.hmacs, exampleWrap.address_cipher,
    exampleWrap.message_cipher⟩

/-- A concrete one-hop example message. -/
def exampleOneMsg : OneHopMixMessage :=
  (mix_client_one_hop 5 (11 * gen % gOrder) [1] [2]).toOption.getD ⟨0, [], [], []⟩

/-- The inner state of a 2-relay client wrap (the part destined for the
second relay, private scalar 13) for client scalar 5. -/
def exampleSt2 : ClientState :=
  clientLayers (key_materials_from
    (bytesToNat ((keyMaterialOf (5 * (11 * gen % gOrder) % gOrder)).drop 48) * 5)
    [13 * gen % gOrder]) (baseState [66] [1])

/-- The full 2-relay example message as received by the first relay
(private scalar 11). -/
def exampleMsg2 : NHopMixMessage :=
  ⟨5 * gen % gOrder,
    (clientLayer (keyMaterialOf (5 * (11 * gen % gOrder) % gOrder)) exampleSt2).hmacs,
    (clientLayer (keyMaterialOf (5 * (11 * gen % gOrder) % gOrder)) exampleSt2).address_cipher,
    (clientLayer (keyMaterialOf (5 * (11 * gen % gOrder) % gOrder)) exampleSt2).message_cipher⟩

/-- Driving a message through a fixed cascade of relays identified by
their private scalars, with `final=True` at the last relay: the
transport layer of the spec, connecting one relay's `forward` outputs to
the next relay's input batch. -/
def runCascade : List Nat → List NHopMixMessage → Except PyError (List MixOut)
  | [], msgs => .ok (msgs.map MixOut.fwd)
  | [relay_priv], msgs => (mix_server_n_hop relay_priv msgs true).2
  | relay_priv :: next :: rest, msgs =>
    match (mix_server_n_hop relay_priv msgs false).2 with
    | .error e => .error e
    | .ok outs =>
      runCascade (next :: rest) (outs.filterMap fun o =>
        match o with
        | .fwd m => some m
        | .deliver _ _ => none)

deriving instance DecidableEq for Except

/-! ## Basic facts about the modelled primitives -/

theorem leBytes_length (w v : Nat) : (leBytes w v).length = w := by
  induction w generalizing v with
  | zero => rfl
  | succ w ih => simp [leBytes, ih]

theorem sha512_length (l : List Nat) : (sha512 l).length = 64 := by
  simp [sha512, leBytes_length]

theorem keystream_length (key iv : List Nat) (n : Nat) :
    (keystream key iv n).length = n := by
  simp [keystream]

theorem aes_length (key iv input : List Nat) :
    (aes_ctr_enc_dec key iv input).length = input.length := by
  simp [aes_ctr_enc_dec, keystream_length]

theorem zipXor_cancel :
    ∀ (x s : List Nat), x.length ≤ s.length →
      List.zipWith (fun a b => a ^^^ b) (List.zipWith (fun a b => a ^^^ b) x s) s = x
  | [], _, _ => by simp
  | a :: x, b :: s, h => by
    simp only [List.zipWith]
    rw [Nat.xor_cancel_right]
    exact congrArg _ (zipXor_cancel x s (Nat.le_of_succ_le_succ h))

theorem aes_invol (key iv input : List Nat) :
    aes_ctr_enc_dec key iv (aes_ctr_enc_dec key iv input) = input := by
  simp only [aes_ctr_enc_dec]
  have hl : (List.zipWith (fun a b => a ^^^ b) input
      (keystream key iv input.length)).length = input.length := by
    simp [keystream_length]
  rw [hl]
  exact zipXor_cancel input _ (keystream_length key iv input.length).ge

theorem encMacs_length (hmac_key : List Nat) :
    ∀ (i : Nat) (ms : List (List Nat)), (encMacs hmac_key i ms).length = ms.length
  | _, [] => rfl
  | i, _ :: ms => by simp [encMacs, encMacs_length hmac_key (i + 1) ms]

theorem encMacs_invol (hmac_key : List Nat) :
    ∀ (i : Nat) (ms : List (List Nat)), encMacs hmac_key i (encMacs hmac_key i ms) = ms
  | _, [] => rfl
  | i, m :: ms => by
    simp [encMacs, aes_invol, encMacs_invol hmac_key (i + 1) ms]

theorem packH_length (w n : Nat) (s : List Nat) : (packH w n s).length = w + 2 := by
  simp only [packH, List.length_cons, List.length_append, List.length_take,
    List.length_replicate]
  omega

theorem take_append_length {α : Type} : ∀ (a b : List α), (a ++ b).take a.length = a
  | [], _ => by simp
  | x :: a, b => by simp [take_append_length a b]

theorem unpackH_packH (w : Nat) (s : List Nat) (h : s.length ≤ w) (h2 : s.length < 65536) :
    unpackH w (packH w s.length s) = (s.length, s ++ List.replicate (w - s.length) 0) := by
  have htake : s.take w = s := List.take_of_length_le h
  have hlen : (s ++ List.replicate (w - s.length) 0).length = w := by
    simp only [List.length_append, List.length_replicate]; omega
  simp only [unpackH, packH, htake, List.getD_cons_zero, List.getD_cons_succ,
    List.drop_succ_cons, List.drop_zero]
  rw [List.take_of_length_le hlen.le]
  refine Prod.ext ?_ rfl
  show s.length / 256 % 256 * 256 + s.length % 256 = s.length
  omega

theorem pack_unpack_recover (w : Nat) (s : List Nat) (h : s.length ≤ w) (h2 : s.length < 65536) :
    ((unpackH w (packH w s.length s)).2).take (unpackH w (packH w s.length s)).1 = s := by
  rw [unpackH_packH w s h h2]
  exact take_append_length s _

theorem gOrder_pos : 0 < gOrder := by decide

theorem mod_gOrder_lt (a : Nat) : a % gOrder < gOrder := Nat.mod_lt _ gOrder_pos

theorem mul_mod_absorb (a y : Nat) : a * (y % gOrder) % gOrder = a * y % gOrder := by
  conv_lhs => rw [Nat.mul_mod]
  conv_rhs => rw [Nat.mul_mod]
  rw [Nat.mod_mod_of_dvd _ dvd_rfl]

/-- The shared-secret agreement: the relay's `relay_priv · incoming_pub`
equals the client's `client_priv · relay_pub` when `incoming_pub =
client_priv · gen` and `relay_pub = relay_priv · gen`. -/
theorem shared_comm (r x g : Nat) :
    r * (x * g % gOrder) % gOrder = x * (r * g % gOrder) % gOrder := by
  rw [mul_mod_absorb, mul_mod_absorb]
  ring_nf

/-- Blinding the public key on the relay side matches blinding the
private scalar on the client side. -/
theorem blind_comm (b x g : Nat) :
    b * (x * g % gOrder) % gOrder = b * x * g % gOrder := by
  rw [mul_mod_absorb, Nat.mul_assoc]

theorem hmacDigest_length (key data : List Nat) : (hmacDigest key data).length = 64 :=
  sha512_length _

theorem mac20_length (key data : List Nat) : ((hmacDigest key data).take 20).length = 20 := by
  simp [List.length_take, hmacDigest_length]

/-! ## The client layering loop: invariants -/

theorem clientLayers_address_length (kms : List (List Nat)) (st : ClientState) :
    (clientLayers kms st).address_cipher.length = st.address_cipher.length := by
  induction kms with
  | nil => rfl
  | cons km kms ih => simp [clientLayers, clientLayer, aes_length, ih]

theorem clientLayers_message_length (kms : List (List Nat)) (st : ClientState) :
    (clientLayers kms st).message_cipher.length = st.message_cipher.length := by
  induction kms with
  | nil => rfl
  | cons km kms ih => simp [clientLayers, clientLayer, aes_length, ih]

theorem clientLayers_hmacs_length (kms : List (List Nat)) (st : ClientState) :
    (clientLayers kms st).hmacs.length = kms.length + st.hmacs.length := by
  induction kms with
  | nil => simp [clientLayers]
  | cons km kms ih =>
    simp only [clientLayers, clientLayer, List.length_cons, encMacs_length, ih]
    omega

theorem clientLayersT_fst (kms : List (List Nat)) (st : ClientState) :
    (clientLayersT kms st).1 = clientLayers kms st := by
  induction kms with
  | nil => rfl
  | cons km kms ih => simp [clientLayersT, clientLayers, ih]

theorem clientLayersT_snd (kms : List (List Nat)) (st : ClientState) :
    (clientLayersT kms st).2 = (List.range kms.length).map Printed.num := by
  induction kms with
  | nil => rfl
  | cons km kms ih => simp [clientLayersT, ih, List.range_succ]

/-- Peeling one client layer at a relay: a relay holding `r`, receiving
the message whose public key is `x · gen` and whose body is the client
state after wrapping with the key material of hop `(x, r)`, accepts the
MAC and recovers exactly the state underneath; with `final` it unpacks
the two envelopes instead. -/
theorem peel_step (r x : Nat) (km : List Nat)
    (hkm : km = keyMaterialOf (x * (r * gen % gOrder) % gOrder))
    (final : Bool) (st : ClientState)
    (hA : st.address_cipher.length = 258) (hM : st.message_cipher.length = 1002) :
    serverNHopMsg r final
      ⟨x * gen % gOrder, (clientLayer km st).hmacs,
        (clientLayer km st).address_cipher, (clientLayer km st).message_cipher⟩ =
    ([Printed.mac ((clientLayer km st).hmacs.headD [])],
      if final then
        .ok (.deliver ((unpackH 256 st.address_cipher).2.take (unpackH 256 st.address_cipher).1)
          ((unpackH 1000 st.message_cipher).2.take (unpackH 1000 st.message_cipher).1))
      else
        .ok (.fwd ⟨bytesToNat (km.drop 48) * (x * gen % gOrder) % gOrder,
          st.hmacs, st.address_cipher, st.message_cipher⟩)) := by
  obtain ⟨ac, mc, hs⟩ := st
  have hshared : r * (x * gen % gOrder) % gOrder = x * (r * gen % gOrder) % gOrder :=
    shared_comm r x gen
  simp only [clientLayer] at *
  simp only [serverNHopMsg, hshared, ← hkm]
  rw [if_pos (mod_gOrder_lt _)]
  rw [if_pos (by
    refine ⟨mac20_length _ _, ?_, ?_⟩ <;> simp [aes_length, hA, hM] at *)]
  cases final <;>
    simp [encMacs_invol, aes_invol, List.headD]

theorem baseState_address_length (addr msg : List Nat) :
    (baseState addr msg).address_cipher.length = 258 := packH_length _ _ _

theorem baseState_message_length (addr msg : List Nat) :
    (baseState addr msg).message_cipher.length = 1002 := packH_length _ _ _

/-- Peeling an onion through the whole cascade: if the message body is
the client wrap of a state `st` under the chained key materials, the
cascade delivers the two unpacked, truncated envelopes of `st`. -/
theorem cascade_peel (rprivs : List Nat) : ∀ (x : Nat) (st : ClientState),
    rprivs ≠ [] → st.address_cipher.length = 258 → st.message_cipher.length = 1002 →
    runCascade rprivs
      [{ ec_public_key := x * gen % gOrder,
         hmacs := (clientLayers (key_materials_from x
           (rprivs.map (fun s => s * gen % gOrder))) st).hmacs,
         address := (clientLayers (key_materials_from x
           (rprivs.map (fun s => s * gen % gOrder))) st).address_cipher,
         message := (clientLayers (key_materials_from x
           (rprivs.map (fun s => s * gen % gOrder))) st).message_cipher }]
      = .ok [.deliver ((unpackH 256 st.address_cipher).2.take (unpackH 256 st.address_cipher).1)
          ((unpackH 1000 st.message_cipher).2.take (unpackH 1000 st.message_cipher).1)] := by
  induction rprivs with
  | nil => intro x st h _ _; exact absurd rfl h
  | cons r rest ih =>
    intro x st _ hA hM
    cases rest with
    | nil =>
      have hfact : clientLayers (key_materials_from x
          ([r].map (fun s => s * gen % gOrder))) st
          = clientLayer (keyMaterialOf (x * (r * gen % gOrder) % gOrder)) st := rfl
      have hpeel := peel_step r x (keyMaterialOf (x * (r * gen % gOrder) % gOrder)) rfl
        true st hA hM
      rw [hfact]
      simp only [runCascade, mix_server_n_hop, runBatch, hpeel]
      simp
    | cons r2 rs =>
      have hfact : clientLayers (key_materials_from x
          ((r :: r2 :: rs).map (fun s => s * gen % gOrder))) st
          = clientLayer (keyMaterialOf (x * (r * gen % gOrder) % gOrder))
              (clientLayers (key_materials_from
                (bytesToNat ((keyMaterialOf (x * (r * gen % gOrder) % gOrder)).drop 48) * x)
                ((r2 :: rs).map (fun s => s * gen % gOrder))) st) := rfl
      have hpeel := peel_step r x (keyMaterialOf (x * (r * gen % gOrder) % gOrder)) rfl
        false (clientLayers (key_materials_from
          (bytesToNat ((keyMaterialOf (x * (r * gen % gOrder) % gOrder)).drop 48) * x)
          ((r2 :: rs).map (fun s => s * gen % gOrder))) st)
        (by rw [clientLayers_address_length]; exact hA)
        (by rw [clientLayers_message_length]; exact hM)
      rw [hfact]
      simp only [runCascade, mix_server_n_hop, runBatch, hpeel]
      simp only [if_true, List.append_nil, List.filterMap_cons, List.filterMap_nil]
      rw [blind_comm (bytesToNat ((keyMaterialOf (x * (r * gen % gOrder) % gOrder)).drop 48)) x gen]
      exact ih (bytesToNat ((keyMaterialOf (x * (r * gen % gOrder) % gOrder)).drop 48) * x)
        st (List.cons_ne_nil r2 rs) hA hM

/-- The one-hop round trip. -/
theorem one_hop_roundtrip (r x : Nat) (addr msg : List Nat)
    (hA : addr.length ≤ 256) (hM : msg.length ≤ 1000) :
    ∃ m, mix_client_one_hop x (r * gen % gOrder) addr msg = .ok m ∧
      mix_server_one_hop r [m] = .ok [(addr, msg)] := by
  have hsh : r * (x * gen % gOrder) % gOrder = (r * gen % gOrder) * x % gOrder :=
    (shared_comm r x gen).trans (by rw [Nat.mul_comm])
  unfold mix_client_one_hop
  rw [if_pos ⟨mod_gOrder_lt _, hA, hM⟩]
  refine ⟨_, rfl, ?_⟩
  unfold mix_server_one_hop exceptMap serverOneHopMsg
  simp only [hsh]
  rw [if_pos (by
    refine ⟨mod_gOrder_lt _, mac20_length _ _, ?_, ?_⟩ <;> simp [aes_length, packH_length])]
  simp [aes_invol, pack_unpack_recover 256 addr hA (by omega),
    pack_unpack_recover 1000 msg hM (by omega), exceptMap, List.mergeSort_singleton]

theorem mix_client_n_hop_ok (x : Nat) (pubs addr msg : List Nat)
    (hA : addr.length ≤ 256) (hM : msg.length ≤ 1000) :
    (mix_client_n_hop x pubs addr msg).2 =
      .ok { ec_public_key := x * gen % gOrder,
            hmacs := (clientLayers (key_materials_from x pubs) (baseState addr msg)).hmacs,
            address := (clientLayers (key_materials_from x pubs)
              (baseState addr msg)).address_cipher,
            message := (clientLayers (key_materials_from x pubs)
              (baseState addr msg)).message_cipher } := by
  simp [mix_client_n_hop, hA, hM, clientLayersT_fst]

/-- Claim C1: for every address of at most 256 bytes, message of at most
1000 bytes and nonempty cascade of relay key pairs, encoding with the
client encoder (`mix_client_one_hop` for one hop, `mix_client_n_hop` for
N hops) and peeling through the relay decoders in cascade order, with
`final=true` at the last relay, yields exactly the original
(address, message) pair. -/
theorem C1_roundtrip (x r : Nat) (rprivs : List Nat) (addr msg : List Nat)
    (hne : rprivs ≠ []) (hA : addr.length ≤ 256) (hM : msg.length ≤ 1000) :
    (∃ m, (mix_client_n_hop x (rprivs.map (fun s => s * gen % gOrder)) addr msg).2 = .ok m ∧
        runCascade rprivs [m] = .ok [.deliver addr msg]) ∧
    (∃ m1, mix_client_one_hop x (r * gen % gOrder) addr msg = .ok m1 ∧
        mix_server_one_hop r [m1] = .ok [(addr, msg)]) := by
  refine ⟨⟨_, mix_client_n_hop_ok x _ addr msg hA hM, ?_⟩, one_hop_roundtrip r x addr msg hA hM⟩
  have h := cascade_peel rprivs x (baseState addr msg) hne
    (baseState_address_length addr msg) (baseState_message_length addr msg)
  simpa [baseState, pack_unpack_recover 256 addr hA (by omega),
    pack_unpack_recover 1000 msg hM (by omega)] using h

theorem C1_roundtrip_witness :
    (∃ m, (mix_client_n_hop 5 ([11, 13].map (fun s => s * gen % gOrder)) [1, 2] [3]).2 = .ok m ∧
        runCascade [11, 13] [m] = .ok [.deliver [1, 2] [3]]) ∧
    (∃ m1, mix_client_one_hop 5 (11 * gen % gOrder) [1, 2] [3] = .ok m1 ∧
        mix_server_one_hop 11 [m1] = .ok [([1, 2], [3])]) :=
  C1_roundtrip 5 11 [11, 13] [1, 2] [3] (by decide) (by decide) (by decide)

/-! ## The per-hop key-agreement and blinding invariant -/

theorem private_keys_from_head (x : Nat) (l : List Nat) :
    (private_keys_from x l).getD 0 0 = x := by
  cases l <;> rfl

theorem getD_map_pub (l : List Nat) : ∀ (i : Nat), i < l.length →
    (l.map (fun s => s * gen % gOrder)).getD i 0 = l.getD i 0 * gen % gOrder := by
  induction l with
  | nil => intro i h; exact absurd h (by simp)
  | cons a l ih =>
    intro i h
    cases i with
    | zero => rfl
    | succ i => exact ih i (by simpa using h)

/-- The per-hop invariant, both halves at once: the relay-side shared
element equals the client-side shared element, and the relay's blinded
next public key equals the client's next private scalar times the
generator. -/
theorem hop_invariant (rprivs : List Nat) : ∀ (x i : Nat), i < rprivs.length →
    rprivs.getD i 0 * (server_pub_chain (x * gen % gOrder) rprivs).getD i 0 % gOrder
      = (private_keys_from x (rprivs.map (fun s => s * gen % gOrder))).getD i 0
        * (rprivs.map (fun s => s * gen % gOrder)).getD i 0 % gOrder
    ∧ bytesToNat ((keyMaterialOf (rprivs.getD i 0
          * (server_pub_chain (x * gen % gOrder) rprivs).getD i 0 % gOrder)).drop 48)
        * (server_pub_chain (x * gen % gOrder) rprivs).getD i 0 % gOrder
      = (private_keys_from x (rprivs.map (fun s => s * gen % gOrder))).getD (i + 1) 0
        * gen % gOrder := by
  induction rprivs with
  | nil => intro x i h; exact absurd h (by simp)
  | cons r rest ih =>
    intro x i h
    have hsh : r * (x * gen % gOrder) % gOrder = x * (r * gen % gOrder) % gOrder :=
      shared_comm r x gen
    cases i with
    | zero =>
      refine ⟨by simpa [server_pub_chain, private_keys_from] using hsh, ?_⟩
      simp only [server_pub_chain, private_keys_from, List.getD_cons_zero,
        List.getD_cons_succ, List.map_cons]
      rw [hsh, private_keys_from_head, blind_comm]
    | succ i =>
      have hstep : bytesToNat ((keyMaterialOf (r * (x * gen % gOrder) % gOrder)).drop 48)
            * (x * gen % gOrder) % gOrder
          = (bytesToNat ((keyMaterialOf (x * (r * gen % gOrder) % gOrder)).drop 48) * x)
            * gen % gOrder := by
        rw [hsh, blind_comm]
      have := ih (bytesToNat ((keyMaterialOf (x * (r * gen % gOrder) % gOrder)).drop 48) * x)
        i (by simpa using h)
      simp only [List.map_cons, List.getD_cons_succ, server_pub_chain, private_keys_from]
      rw [hstep]
      exact this

/-- Claim C2: for every hop `i` of an n-hop cascade, the shared element
the relay computes (`relay_priv_i · incoming_pub_i`) equals the shared
element the client computed (`client_priv_i · relay_pub_i`), and the
relay's forward-blinded next public key (`blind_i · incoming_pub_i`)
equals the client's next private scalar times the generator. -/
theorem C2_hop_invariant (rprivs : List Nat) (x i : Nat) (hi : i < rprivs.length) :
    rprivs.getD i 0 * (server_pub_chain (x * gen % gOrder) rprivs).getD i 0 % gOrder
      = (private_keys_from x (rprivs.map (fun s => s * gen % gOrder))).getD i 0
        * (rprivs.getD i 0 * gen % gOrder) % gOrder
    ∧ bytesToNat ((keyMaterialOf (rprivs.getD i 0
          * (server_pub_chain (x * gen % gOrder) rprivs).getD i 0 % gOrder)).drop 48)
        * (server_pub_chain (x * gen % gOrder) rprivs).getD i 0 % gOrder
      = (private_keys_from x (rprivs.map (fun s => s * gen % gOrder))).getD (i + 1) 0
        * gen % gOrder := by
  have h := hop_invariant rprivs x i hi
  rwa [getD_map_pub rprivs i hi] at h

theorem C2_hop_invariant_witness :
    1 < ([11, 13, 17] : List Nat).length ∧
    (([11, 13, 17] : List Nat).getD 1 0
        * (server_pub_chain (5 * gen % gOrder) [11, 13, 17]).getD 1 0 % gOrder
      = (private_keys_from 5 ([11, 13, 17].map (fun s => s * gen % gOrder))).getD 1 0
        * (([11, 13, 17] : List Nat).getD 1 0 * gen % gOrder) % gOrder
    ∧ bytesToNat ((keyMaterialOf (([11, 13, 17] : List Nat).getD 1 0
          * (server_pub_chain (5 * gen % gOrder) [11, 13, 17]).getD 1 0 % gOrder)).drop 48)
        * (server_pub_chain (5 * gen % gOrder) [11, 13, 17]).getD 1 0 % gOrder
      = (private_keys_from 5 ([11, 13, 17].map (fun s => s * gen % gOrder))).getD 2 0
        * gen % gOrder) :=
  ⟨by decide, C2_hop_invariant [11, 13, 17] 5 1 (by decide)⟩

/-! ## The batch output order -/

theorem bytesCmp_swap : ∀ (x y : List Nat), bytesCmp y x = (bytesCmp x y).swap
  | [], [] => rfl
  | [], _ :: _ => rfl
  | _ :: _, [] => rfl
  | a :: as, b :: bs => by
    simp only [bytesCmp]
    rcases Nat.lt_trichotomy a b with h | h | h
    · have h' : ¬ b < a := by omega
      simp [h, h', Ordering.swap]
    · subst h
      simp only [Nat.lt_irrefl, if_false]
      exact bytesCmp_swap as bs
    · have h' : ¬ a < b := by omega
      simp [h, h', Ordering.swap]

theorem bytesCmp_eq : ∀ (x y : List Nat), bytesCmp x y = .eq → x = y
  | [], [], _ => rfl
  | [], _ :: _, h => by simp [bytesCmp] at h
  | _ :: _, [], h => by simp [bytesCmp] at h
  | a :: as, b :: bs, h => by
    simp only [bytesCmp] at h
    split_ifs at h with h1 h2
    rw [bytesCmp_eq as bs h]
    have : a = b := by omega
    rw [this]

theorem bytesCmp_lt_trans : ∀ (x y z : List Nat),
    bytesCmp x y = .lt → bytesCmp y z = .lt → bytesCmp x z = .lt
  | [], [], _, hxy, _ => by simp [bytesCmp] at hxy
  | [], _ :: _, [], _, hyz => by simp [bytesCmp] at hyz
  | [], _ :: _, _ :: _, _, _ => rfl
  | _ :: _, [], _, hxy, _ => by simp [bytesCmp] at hxy
  | _ :: _, _ :: _, [], _, hyz => by simp [bytesCmp] at hyz
  | a :: as, b :: bs, c :: cs, hxy, hyz => by
    simp only [bytesCmp] at hxy hyz ⊢
    split_ifs at hxy hyz ⊢ with h1 h2 h3 h4 h5 h6 <;>
      first
        | rfl
        | omega
        | exact bytesCmp_lt_trans as bs cs hxy hyz

theorem pairLe_total (p q : List Nat × List Nat) : pairLe p q || pairLe q p := by
  unfold pairLe
  rw [bytesCmp_swap p.1 q.1, bytesCmp_swap p.2 q.2]
  cases bytesCmp p.1 q.1 <;> cases bytesCmp p.2 q.2 <;> rfl

theorem pairLe_trans (p q s : List Nat × List Nat) :
    pairLe p q → pairLe q s → pairLe p s := by
  intro hpq hqs
  unfold pairLe at hpq hqs ⊢
  cases h1 : bytesCmp p.1 q.1 with
  | lt =>
    cases h2 : bytesCmp q.1 s.1 with
    | lt => simp [bytesCmp_lt_trans _ _ _ h1 h2]
    | eq => rw [← bytesCmp_eq _ _ h2]; simp [h1]
    | gt => simp [h2] at hqs
  | eq =>
    have he1 := bytesCmp_eq _ _ h1
    simp only [h1] at hpq
    rw [he1]
    cases h2 : bytesCmp q.1 s.1 with
    | lt => simp
    | eq =>
      simp only [h2] at hqs ⊢
      cases h3 : bytesCmp p.2 q.2 <;> simp only [h3] at hpq
      · cases h4 : bytesCmp q.2 s.2 <;> simp only [h4] at hqs
        · simp [bytesCmp_lt_trans _ _ _ h3 h4]
        · rw [← bytesCmp_eq _ _ h4]; simp [h3]
        · exact absurd hqs (by simp)
      · rw [bytesCmp_eq _ _ h3]
        exact hqs
      · exact absurd hpq (by simp)
    | gt => simp [h2] at hqs
  | gt => simp [h1] at hpq

theorem runBatch_ok {α β : Type} (f : α → List Printed × Except PyError β) :
    ∀ (xs : List α) (ys : List β), (runBatch f xs).2 = .ok ys →
      ys.length = xs.length ∧
        ∀ (i : Nat) (da : α) (db : β), i < xs.length →
          (f (xs.getD i da)).2 = .ok (ys.getD i db) := by
  intro xs
  induction xs with
  | nil =>
    intro ys h
    simp only [runBatch] at h
    exact ⟨by simp [← Except.ok.inj h], by intro i _ _ hi; exact absurd hi (by simp)⟩
  | cons x xs ih =>
    intro ys h
    simp only [runBatch] at h
    rcases hfx : f x with ⟨t, r⟩
    rw [hfx] at h
    cases r with
    | error e => simp at h
    | ok y =>
      rcases hrb : runBatch f xs with ⟨ts, r2⟩
      rw [hrb] at h
      cases r2 with
      | error e => simp at h
      | ok ys' =>
        have hys : ys = y :: ys' := (Except.ok.inj h.symm)
        subst hys
        have hih := ih ys' (by rw [hrb])
        refine ⟨by simp [hih.1], ?_⟩
        intro i da db hi
        cases i with
        | zero => simpa [hfx]
        | succ i => exact hih.2 i da db (by simpa using hi)

/-! ## Symbolic decoding of concrete client-encoded messages -/

theorem mix_client_one_hop_isOk (x pub : Nat) (addr msg : List Nat)
    (hp : pub < gOrder) (hA : addr.length ≤ 256) (hM : msg.length ≤ 1000) :
    ∃ m, mix_client_one_hop x pub addr msg = .ok m := by
  unfold mix_client_one_hop
  rw [if_pos ⟨hp, hA, hM⟩]
  exact ⟨_, rfl⟩

theorem serverOneHop_client (r x : Nat) (addr msg : List Nat) (m : OneHopMixMessage)
    (hA : addr.length ≤ 256) (hM : msg.length ≤ 1000)
    (hc : mix_client_one_hop x (r * gen % gOrder) addr msg = .ok m) :
    serverOneHopMsg r m = .ok (addr, msg) := by
  have hsh : r * (x * gen % gOrder) % gOrder = (r * gen % gOrder) * x % gOrder :=
    (shared_comm r x gen).trans (by rw [Nat.mul_comm])
  unfold mix_client_one_hop at hc
  rw [if_pos ⟨mod_gOrder_lt _, hA, hM⟩] at hc
  have hm := (Except.ok.inj hc)
  subst hm
  unfold serverOneHopMsg
  simp only [hsh]
  rw [if_pos (by
    refine ⟨mod_gOrder_lt _, mac20_length _ _, ?_, ?_⟩ <;> simp [aes_length, packH_length])]
  simp [aes_invol, pack_unpack_recover 256 addr hA (by omega),
    pack_unpack_recover 1000 msg hM (by omega)]

/-- A single-relay client encoding decodes (with `final=true`) to the
original pair in one server step. -/
theorem single_hop_deliver (r x : Nat) (addr msg : List Nat)
    (hA : addr.length ≤ 256) (hM : msg.length ≤ 1000) :
    serverNHopMsg r true
      { ec_public_key := x * gen % gOrder,
        hmacs := (clientLayers (key_materials_from x [r * gen % gOrder])
          (baseState addr msg)).hmacs,
        address := (clientLayers (key_materials_from x [r * gen % gOrder])
          (baseState addr msg)).address_cipher,
        message := (clientLayers (key_materials_from x [r * gen % gOrder])
          (baseState addr msg)).message_cipher }
      = ([Printed.mac ((clientLayers (key_materials_from x [r * gen % gOrder])
            (baseState addr msg)).hmacs.headD [])],
          .ok (.deliver addr msg)) := by
  have hfact : clientLayers (key_materials_from x [r * gen % gOrder]) (baseState addr msg)
      = clientLayer (keyMaterialOf (x * (r * gen % gOrder) % gOrder)) (baseState addr msg) := rfl
  rw [hfact]
  have hpeel := peel_step r x (keyMaterialOf (x * (r * gen % gOrder) % gOrder)) rfl
    true (baseState addr msg) (baseState_address_length addr msg)
    (baseState_message_length addr msg)
  rw [hpeel]
  simp [baseState, pack_unpack_recover 256 addr hA (by omega),
    pack_unpack_recover 1000 msg hM (by omega)]

theorem C3_sorted_counterexample :
    (mix_server_n_hop 11
        ((mix_client_n_hop 5 [11 * gen % gOrder] [66] [1]).2.toOption.toList ++
          (mix_client_n_hop 6 [11 * gen % gOrder] [65] [1]).2.toOption.toList) true).2
      = .ok [.deliver [66] [1], .deliver [65] [1]]
    ∧ pairLe ([66], [1]) ([65], [1]) = false := by
  rw [mix_client_n_hop_ok 5 [11 * gen % gOrder] [66] [1] (by decide) (by decide),
    mix_client_n_hop_ok 6 [11 * gen % gOrder] [65] [1] (by decide) (by decide)]
  simp only [Except.toOption, Option.toList, List.singleton_append, List.cons_append,
    List.nil_append]
  refine ⟨?_, by decide⟩
  simp only [mix_server_n_hop, runBatch,
    single_hop_deliver 11 5 [66] [1] (by decide) (by decide),
    single_hop_deliver 11 6 [65] [1] (by decide) (by decide)]

/-- Claim C3, amended: the one-hop decoder's batch output is sorted
lexicographically by the decoded (address, message) tuple; the n-hop
decoder (final or not) returns its outputs in the arrival order of the
batch, one output per input message, without sorting. -/
theorem C3_output_order :
    (∀ (priv : Nat) (msgs : List OneHopMixMessage) (outs : List (List Nat × List Nat)),
        mix_server_one_hop priv msgs = .ok outs →
        outs.Pairwise (fun p q => pairLe p q = true)) ∧
    (∀ (priv : Nat) (fin : Bool) (msgs : List NHopMixMessage) (outs : List MixOut),
        (mix_server_n_hop priv msgs fin).2 = .ok outs →
        outs.length = msgs.length ∧
          ∀ i, i < msgs.length →
            (serverNHopMsg priv fin (msgs.getD i ⟨0, [], [], []⟩)).2
              = .ok (outs.getD i (.deliver [] []))) := by
  constructor
  · intro priv msgs outs h
    unfold mix_server_one_hop at h
    rcases hem : exceptMap (serverOneHopMsg priv) msgs with e | raw <;> rw [hem] at h
    · simp at h
    · have houts : outs = raw.mergeSort pairLe := (Except.ok.inj h.symm)
      subst houts
      exact List.sorted_mergeSort
        (fun a b c => pairLe_trans a b c) (fun a b => pairLe_total a b) raw
  · intro priv fin msgs outs h
    have := runBatch_ok (serverNHopMsg priv fin) msgs outs h
    exact ⟨this.1, fun i hi => this.2 i ⟨0, [], [], []⟩ (.deliver [] []) hi⟩

theorem C3_output_order_witness :
    (([([65], [1]), ([66], [1])] : List (List Nat × List Nat)).Pairwise
        (fun p q => pairLe p q = true)) ∧
    (([MixOut.deliver [66] [1]] : List MixOut).length =
        ((mix_client_n_hop 5 [11 * gen % gOrder] [66] [1]).2.toOption.toList).length ∧
      ∀ i, i < ((mix_client_n_hop 5 [11 * gen % gOrder] [66] [1]).2.toOption.toList).length →
        (serverNHopMsg 11 true
            (((mix_client_n_hop 5 [11 * gen % gOrder] [66] [1]).2.toOption.toList).getD i
              ⟨0, [], [], []⟩)).2
          = .ok (([MixOut.deliver [66] [1]] : List MixOut).getD i (.deliver [] []))) := by
  constructor
  · refine C3_output_order.1 11
      ((mix_client_one_hop 6 (11 * gen % gOrder) [66] [1]).toOption.toList ++
        (mix_client_one_hop 7 (11 * gen % gOrder) [65] [1]).toOption.toList)
      [([65], [1]), ([66], [1])] ?_
    obtain ⟨m6, hc6⟩ := mix_client_one_hop_isOk 6 (11 * gen % gOrder) [66] [1]
      (mod_gOrder_lt _) (by decide) (by decide)
    obtain ⟨m7, hc7⟩ := mix_client_one_hop_isOk 7 (11 * gen % gOrder) [65] [1]
      (mod_gOrder_lt _) (by decide) (by decide)
    rw [hc6, hc7]
    simp only [Except.toOption, Option.toList, List.cons_append, List.nil_append]
    unfold mix_server_one_hop
    simp only [exceptMap,
      serverOneHop_client 11 6 [66] [1] m6 (by decide) (by decide) hc6,
      serverOneHop_client 11 7 [65] [1] m7 (by decide) (by decide) hc7]
    simp [List.mergeSort, pairLe, bytesCmp]
  · refine C3_output_order.2 11 true
      ((mix_client_n_hop 5 [11 * gen % gOrder] [66] [1]).2.toOption.toList)
      [MixOut.deliver [66] [1]] ?_
    rw [mix_client_n_hop_ok 5 [11 * gen % gOrder] [66] [1] (by decide) (by decide)]
    simp only [Except.toOption, Option.toList, mix_server_n_hop, runBatch,
      single_hop_deliver 11 5 [66] [1] (by decide) (by decide)]

/-! ## Exception propagation through a batch -/

theorem runBatch_error {α β : Type} (f : α → List Printed × Except PyError β) :
    ∀ (pref : List α) (bad : α) (rest : List α) (e : PyError),
      (∀ m ∈ pref, ∃ t y, f m = (t, .ok y)) → (f bad).2 = .error e →
      (runBatch f (pref ++ bad :: rest)).2 = .error e := by
  intro pref
  induction pref with
  | nil =>
    intro bad rest e _ hbad
    simp only [List.nil_append, runBatch]
    rcases hfb : f bad with ⟨t, r⟩
    rw [hfb] at hbad
    cases r with
    | error e2 => cases hbad; rfl
    | ok y => simp at hbad
  | cons p pref ih =>
    intro bad rest e hok hbad
    obtain ⟨t, y, hfp⟩ := hok p (List.mem_cons_self p pref)
    have htail := ih bad rest e (fun m hm => hok m (List.mem_cons_of_mem p hm)) hbad
    simp only [List.cons_append, runBatch, hfp]
    rcases hrb : runBatch f (pref ++ bad :: rest) with ⟨ts, r2⟩
    rw [hrb] at htail
    cases r2 with
    | error e2 => cases htail; rfl
    | ok ys => simp at htail

theorem exceptMap_error {α β : Type} (f : α → Except PyError β) :
    ∀ (pref : List α) (bad : α) (rest : List α) (e : PyError),
      (∀ m ∈ pref, ∃ y, f m = .ok y) → f bad = .error e →
      exceptMap f (pref ++ bad :: rest) = .error e := by
  intro pref
  induction pref with
  | nil =>
    intro bad rest e _ hbad
    simp only [List.nil_append, exceptMap, hbad]
  | cons p pref ih =>
    intro bad rest e hok hbad
    obtain ⟨y, hfp⟩ := hok p (List.mem_cons_self p pref)
    have htail := ih bad rest e (fun m hm => hok m (List.mem_cons_of_mem p hm)) hbad
    show exceptMap f ((p :: pref) ++ bad :: rest) = .error e
    rw [List.cons_append]
    unfold exceptMap
    rw [hfp, htail]

theorem C4_abort_counterexample :
    (mix_server_n_hop 11
        ((mix_client_n_hop 5 [11 * gen % gOrder] [66] [1]).2.toOption.toList) true).2
      = .ok [.deliver [66] [1]]
    ∧ (mix_server_n_hop 11
        ({ ec_public_key := 5, hmacs := [[1]], address := [2], message := [3] } ::
          (mix_client_n_hop 5 [11 * gen % gOrder] [66] [1]).2.toOption.toList) true).2
      = .error .malformedMessage := by
  rw [mix_client_n_hop_ok 5 [11 * gen % gOrder] [66] [1] (by decide) (by decide)]
  simp only [Except.toOption, Option.toList]
  constructor
  · simp only [mix_server_n_hop, runBatch,
      single_hop_deliver 11 5 [66] [1] (by decide) (by decide)]
  · have hbad : serverNHopMsg 11 true
        { ec_public_key := 5, hmacs := [[1]], address := [2], message := [3] }
        = ([], .error .malformedMessage) := by decide
    simp only [mix_server_n_hop, runBatch, hbad]

/-- Claim C4, amended: an exception raised while decoding one message of
a batch propagates out of the whole decoder call: once the messages
before it have decoded successfully, the failing message's error is the
result of the batch call, the messages after it are never processed, and
no outputs are returned — for the n-hop decoder and for the one-hop
decoder alike. -/
theorem C4_abort (priv : Nat) (fin : Bool) :
    (∀ (pref : List NHopMixMessage) (bad : NHopMixMessage) (rest : List NHopMixMessage)
        (e : PyError),
      (∀ m ∈ pref, ∃ t y, serverNHopMsg priv fin m = (t, .ok y)) →
      (serverNHopMsg priv fin bad).2 = .error e →
      (mix_server_n_hop priv (pref ++ bad :: rest) fin).2 = .error e) ∧
    (∀ (pref : List OneHopMixMessage) (bad : OneHopMixMessage) (rest : List OneHopMixMessage)
        (e : PyError),
      (∀ m ∈ pref, ∃ y, serverOneHopMsg priv m = .ok y) →
      serverOneHopMsg priv bad = .error e →
      mix_server_one_hop priv (pref ++ bad :: rest) = .error e) := by
  constructor
  · intro pref bad rest e hok hbad
    exact runBatch_error (serverNHopMsg priv fin) pref bad rest e hok hbad
  · intro pref bad rest e hok hbad
    unfold mix_server_one_hop
    rw [exceptMap_error (serverOneHopMsg priv) pref bad rest e hok hbad]

theorem C4_abort_witness :
    (mix_server_n_hop 11 ([] ++ (⟨5, [[1]], [2], [3]⟩ : NHopMixMessage) :: []) true).2
      = .error .malformedMessage
    ∧ mix_server_one_hop 11 ([] ++ (⟨gOrder, [1], [2], [3]⟩ : OneHopMixMessage) :: [])
      = .error .malformedMessage :=
  ⟨(C4_abort 11 true).1 [] ⟨5, [[1]], [2], [3]⟩ [] .malformedMessage
      (by intro m hm; cases hm) (by decide),
    (C4_abort 11 true).2 [] ⟨gOrder, [1], [2], [3]⟩ [] .malformedMessage
      (by intro m hm; cases hm) (by decide)⟩

/-- Claim C5, amended: format validation of the n-hop decoder runs
before any cryptographic step and before anything is printed; an invalid
curve point, a wrong-length first MAC entry, a wrong-length address
ciphertext or a wrong-length message ciphertext fail with the
MalformedMessage error, but an empty MAC list makes the Python
expression `msg.hmacs[0]` raise an IndexError, not MalformedMessage. -/
theorem C5_validation (priv : Nat) (fin : Bool) (msg : NHopMixMessage) :
    (¬ msg.ec_public_key < gOrder →
      serverNHopMsg priv fin msg = ([], .error .malformedMessage)) ∧
    (msg.ec_public_key < gOrder → msg.hmacs = [] →
      serverNHopMsg priv fin msg = ([], .error .indexError)) ∧
    (∀ mac0 rest, msg.ec_public_key < gOrder → msg.hmacs = mac0 :: rest →
      ¬ (mac0.length = 20 ∧ msg.address.length = 258 ∧ msg.message.length = 1002) →
      serverNHopMsg priv fin msg = ([], .error .malformedMessage)) := by
  refine ⟨?_, ?_, ?_⟩
  · intro hp
    unfold serverNHopMsg
    rw [if_neg hp]
  · intro hp hnil
    unfold serverNHopMsg
    rw [if_pos hp, hnil]
  · intro mac0 rest hp hcons hlen
    unfold serverNHopMsg
    rw [if_pos hp, hcons]
    simp only [if_neg hlen]

theorem C5_validation_witness :
    serverNHopMsg 11 true ⟨gOrder, [[1]], [2], [3]⟩ = ([], .error .malformedMessage)
    ∧ serverNHopMsg 11 true ⟨5, [], [2], [3]⟩ = ([], .error .indexError)
    ∧ serverNHopMsg 11 true ⟨5, [[1]], [2], [3]⟩ = ([], .error .malformedMessage) :=
  ⟨(C5_validation 11 true _).1 (by decide),
    (C5_validation 11 true _).2.1 (by decide) rfl,
    (C5_validation 11 true _).2.2 [1] [] (by decide) rfl (by decide)⟩

theorem C5_empty_mac_counterexample :
    (serverNHopMsg 11 true ⟨5, [], List.replicate 258 0, List.replicate 1002 0⟩).2
      = .error .indexError
    ∧ PyError.indexError ≠ PyError.malformedMessage := by
  exact ⟨rfl, by decide⟩

/-! ## The toy hash detects any single-byte change -/

theorem hashMod_pos : 0 < hashMod := by decide

theorem hashStep_lt (a b : Nat) : hashStep a b < hashMod := Nat.mod_lt _ hashMod_pos

theorem foldl_hashStep_lt : ∀ (l : List Nat) (a : Nat), a < hashMod →
    List.foldl hashStep a l < hashMod
  | [], _, h => h
  | _ :: l, a, _ => foldl_hashStep_lt l _ (hashStep_lt a _)

theorem hashOf_lt (l : List Nat) : hashOf l < hashMod :=
  foldl_hashStep_lt l 5381 (by decide)

theorem hashStep_inj_seed (a b x : Nat) (ha : a < hashMod) (hb : b < hashMod)
    (hne : a ≠ b) : hashStep a x ≠ hashStep b x := by
  intro h
  have hm : a * 269 + (x + 7) ≡ b * 269 + (x + 7) [MOD hashMod] := by
    have : a * 269 + x + 7 ≡ b * 269 + x + 7 [MOD hashMod] := h
    simpa [Nat.add_assoc] using this
  have hm2 : a * 269 ≡ b * 269 [MOD hashMod] :=
    Nat.ModEq.add_right_cancel (Nat.ModEq.refl (x + 7)) hm
  have hm3 : a ≡ b [MOD hashMod] :=
    Nat.ModEq.cancel_right_of_coprime (by decide) hm2
  have : a % hashMod = b % hashMod := hm3
  rw [Nat.mod_eq_of_lt ha, Nat.mod_eq_of_lt hb] at this
  exact hne this

theorem hashStep_inj_data (a x y : Nat) (hx : x < hashMod) (hy : y < hashMod)
    (hne : x ≠ y) : hashStep a x ≠ hashStep a y := by
  intro h
  have hm : a * 269 + 7 + x ≡ a * 269 + 7 + y [MOD hashMod] := by
    have : a * 269 + x + 7 ≡ a * 269 + y + 7 [MOD hashMod] := h
    simpa [Nat.add_right_comm] using this
  have hm2 : x ≡ y [MOD hashMod] :=
    Nat.ModEq.add_left_cancel (Nat.ModEq.refl (a * 269 + 7)) hm
  have : x % hashMod = y % hashMod := hm2
  rw [Nat.mod_eq_of_lt hx, Nat.mod_eq_of_lt hy] at this
  exact hne this

theorem foldl_hashStep_inj : ∀ (l : List Nat) (a b : Nat), a < hashMod → b < hashMod →
    a ≠ b → List.foldl hashStep a l ≠ List.foldl hashStep b l
  | [], _, _, _, _, hne => hne
  | x :: l, a, b, ha, hb, hne =>
    foldl_hashStep_inj l (hashStep a x) (hashStep b x) (hashStep_lt a x) (hashStep_lt b x)
      (hashStep_inj_seed a b x ha hb hne)

theorem hashOf_single_change (pre post : List Nat) (b b' : Nat)
    (hb : b < 256) (hb' : b' < 256) (hne : b ≠ b') :
    hashOf (pre ++ b :: post) ≠ hashOf (pre ++ b' :: post) := by
  unfold hashOf
  rw [List.foldl_append, List.foldl_append]
  simp only [List.foldl_cons]
  have hs : List.foldl hashStep 5381 pre < hashMod := foldl_hashStep_lt pre 5381 (by decide)
  exact foldl_hashStep_inj post _ _ (hashStep_lt _ _) (hashStep_lt _ _)
    (hashStep_inj_data _ b b' (by unfold hashMod; omega) (by unfold hashMod; omega) hne)

theorem ofLeBytes_leBytes : ∀ (w v : Nat), ofLeBytes (leBytes w v) = v % 256 ^ w
  | 0, v => by simp [leBytes, ofLeBytes, Nat.mod_one]
  | w + 1, v => by
    have ih := ofLeBytes_leBytes w (v / 256)
    simp only [leBytes, ofLeBytes, ih]
    rw [Nat.pow_succ, Nat.mul_comm (256 ^ w) 256, Nat.mod_mul]

theorem leBytes_inj (w v1 v2 : Nat) (h1 : v1 < 256 ^ w) (h2 : v2 < 256 ^ w)
    (h : leBytes w v1 = leBytes w v2) : v1 = v2 := by
  have := congrArg ofLeBytes h
  rw [ofLeBytes_leBytes, ofLeBytes_leBytes, Nat.mod_eq_of_lt h1, Nat.mod_eq_of_lt h2] at this
  exact this

theorem sha512_take20 (l : List Nat) : (sha512 l).take 20 = leBytes 20 (hashOf l) := by
  have h20 : (leBytes 20 (hashOf l)).length = 20 := leBytes_length _ _
  calc (sha512 l).take 20
      = (leBytes 20 (hashOf l) ++
          (List.range 44).map (fun i => (hashOf l + (i + 3) * (i + 11)) % 256)).take
            (leBytes 20 (hashOf l)).length := by rw [h20]; rfl
    _ = leBytes 20 (hashOf l) := take_append_length _ _

theorem hashMod_lt_pow : hashMod < 256 ^ 20 := by decide

theorem sha512_take20_inj (l1 l2 : List Nat)
    (h : (sha512 l1).take 20 = (sha512 l2).take 20) : hashOf l1 = hashOf l2 := by
  rw [sha512_take20, sha512_take20] at h
  exact leBytes_inj 20 _ _ (lt_trans (hashOf_lt l1) hashMod_lt_pow)
    (lt_trans (hashOf_lt l2) hashMod_lt_pow) h

/-- Changing a single byte of the MAC'd data changes the truncated MAC. -/
theorem mac20_ne (key pre post : List Nat) (b b' : Nat)
    (hb : b < 256) (hb' : b' < 256) (hne : b ≠ b') :
    (hmacDigest key (pre ++ b :: post)).take 20 ≠ (hmacDigest key (pre ++ b' :: post)).take 20 := by
  intro h
  unfold hmacDigest at h
  have hh := sha512_take20_inj _ _ h
  have e1 : key ++ [92] ++ (pre ++ b :: post) ++ [54] ++ key
      = (key ++ [92] ++ pre) ++ b :: (post ++ [54] ++ key) := by simp
  have e2 : key ++ [92] ++ (pre ++ b' :: post) ++ [54] ++ key
      = (key ++ [92] ++ pre) ++ b' :: (post ++ [54] ++ key) := by simp
  rw [e1, e2] at hh
  exact hashOf_single_change _ _ b b' hb hb' hne hh

/-! ## Inversion of a successful n-hop decode, and MAC rejection -/

theorem serverN_ok_facts (priv : Nat) (fin : Bool) (msg : NHopMixMessage)
    (tr : List Printed) (out : MixOut)
    (h : serverNHopMsg priv fin msg = (tr, .ok out)) :
    msg.ec_public_key < gOrder ∧ (msg.hmacs.headD []).length = 20
    ∧ msg.address.length = 258 ∧ msg.message.length = 1002
    ∧ msg.hmacs ≠ [] ∧ msg.hmacs.headD [] = serverExpectedMac priv msg
    ∧ tr = [Printed.mac (serverExpectedMac priv msg)] := by
  simp only [serverNHopMsg] at h
  by_cases hp : msg.ec_public_key < gOrder
  · rw [if_pos hp] at h
    rcases hh : msg.hmacs with _ | ⟨mac0, rest⟩
    · rw [hh] at h; simp at h
    · rw [hh] at h
      dsimp only at h
      by_cases hlen : mac0.length = 20 ∧ msg.address.length = 258 ∧ msg.message.length = 1002
      · rw [if_pos hlen] at h
        by_cases hmac : mac0 = (hmacDigest
            ((keyMaterialOf (priv * msg.ec_public_key % gOrder)).take 16)
            (rest.flatten ++ msg.address ++ msg.message)).take 20
        · have hexp : serverExpectedMac priv msg = (hmacDigest
              ((keyMaterialOf (priv * msg.ec_public_key % gOrder)).take 16)
              (rest.flatten ++ msg.address ++ msg.message)).take 20 := by
            unfold serverExpectedMac
            rw [hh]
            rfl
          rw [if_pos hmac] at h
          have htr : tr = [Printed.mac mac0] := by
            cases fin
            · rw [if_neg (by simp)] at h
              exact ((congrArg Prod.fst h).symm).trans (by rw [hmac])
            · rw [if_pos rfl] at h
              exact ((congrArg Prod.fst h).symm).trans (by rw [hmac])
          refine ⟨hp, by simp [hh, hlen.1], hlen.2.1, hlen.2.2, by simp [hh], ?_, ?_⟩
          · rw [hexp]; simpa [hh] using hmac
          · rw [hexp, ← hmac]
            exact htr
        · rw [if_neg hmac] at h; simp at h
      · rw [if_neg hlen] at h; simp at h
  · rw [if_neg hp] at h; simp at h

theorem serverN_macFail (priv : Nat) (fin : Bool) (msg : NHopMixMessage)
    (hp : msg.ec_public_key < gOrder)
    (hne_nil : msg.hmacs ≠ [])
    (h20 : (msg.hmacs.headD []).length = 20)
    (hA : msg.address.length = 258) (hM : msg.message.length = 1002)
    (hmac : msg.hmacs.headD [] ≠ serverExpectedMac priv msg) :
    (serverNHopMsg priv fin msg).2 = .error .macFailure := by
  rcases hh : msg.hmacs with _ | ⟨mac0, rest⟩
  · exact absurd hh hne_nil
  · have hexp : serverExpectedMac priv msg = (hmacDigest
        ((keyMaterialOf (priv * msg.ec_public_key % gOrder)).take 16)
        (rest.flatten ++ msg.address ++ msg.message)).take 20 := by
      unfold serverExpectedMac
      rw [hh]
      rfl
    simp only [serverNHopMsg]
    rw [if_pos hp, hh]
    dsimp only
    rw [if_pos ⟨by simpa [hh] using h20, hA, hM⟩]
    rw [if_neg (by rw [hh] at hmac; simp only [List.headD] at hmac; rw [hexp] at hmac; exact hmac)]

theorem list_decomp (l : List Nat) (k : Nat) (h : k < l.length) :
    l = l.take k ++ l.getD k 0 :: l.drop (k + 1) := by
  conv_lhs => rw [← List.take_append_drop k l]
  congr 1
  rw [List.drop_eq_getElem_cons h, List.getD_eq_getElem l 0 h]

theorem tamper_length (l : List Nat) (k b' : Nat) (h : k < l.length) :
    (l.take k ++ b' :: l.drop (k + 1)).length = l.length := by
  simp only [List.length_append, List.length_cons, List.length_take, List.length_drop]
  omega

/-- Claim C6: a message that the n-hop relay decoder accepts is rejected
with MacVerificationFailure whenever its first MAC entry is replaced by
any different 20-byte value, or any single byte of its address
ciphertext or of its message ciphertext is replaced by a different byte
value (a single-bit flip is the special case `b' = b xor 2^j`).  The
decode never completes with a wrong decryption. -/
theorem C6_tamper_rejected (priv : Nat) (fin : Bool) (msg : NHopMixMessage)
    (tr : List Printed) (out : MixOut)
    (h : serverNHopMsg priv fin msg = (tr, .ok out)) :
    (∀ mac0' : List Nat, mac0'.length = 20 → mac0' ≠ msg.hmacs.headD [] →
      (serverNHopMsg priv fin ⟨msg.ec_public_key, mac0' :: msg.hmacs.tail,
        msg.address, msg.message⟩).2 = .error .macFailure) ∧
    (∀ k b' : Nat, k < msg.address.length → msg.address.getD k 0 < 256 → b' < 256 →
      b' ≠ msg.address.getD k 0 →
      (serverNHopMsg priv fin ⟨msg.ec_public_key, msg.hmacs,
        msg.address.take k ++ b' :: msg.address.drop (k + 1), msg.message⟩).2
        = .error .macFailure) ∧
    (∀ k b' : Nat, k < msg.message.length → msg.message.getD k 0 < 256 → b' < 256 →
      b' ≠ msg.message.getD k 0 →
      (serverNHopMsg priv fin ⟨msg.ec_public_key, msg.hmacs, msg.address,
        msg.message.take k ++ b' :: msg.message.drop (k + 1)⟩).2
        = .error .macFailure) := by
  obtain ⟨hp, h20, hA, hM, hnil, hmac0, htr⟩ := serverN_ok_facts priv fin msg tr out h
  refine ⟨?_, ?_, ?_⟩
  · intro mac0' h20' hne
    refine serverN_macFail priv fin _ hp (by simp) h20' hA hM ?_
    show mac0' ≠ serverExpectedMac priv
      ⟨msg.ec_public_key, mac0' :: msg.hmacs.tail, msg.address, msg.message⟩
    have hexp' : serverExpectedMac priv
        ⟨msg.ec_public_key, mac0' :: msg.hmacs.tail, msg.address, msg.message⟩
        = serverExpectedMac priv msg := rfl
    rw [hexp', ← hmac0]
    exact hne
  · intro k b' hk hbk hb' hne
    refine serverN_macFail priv fin _ hp hnil h20 (by rw [tamper_length _ _ _ hk]; exact hA) hM ?_
    show msg.hmacs.headD [] ≠ serverExpectedMac priv
      ⟨msg.ec_public_key, msg.hmacs, msg.address.take k ++ b' :: msg.address.drop (k + 1),
        msg.message⟩
    rw [hmac0]
    have e1 : msg.hmacs.tail.flatten ++ msg.address ++ msg.message
        = (msg.hmacs.tail.flatten ++ msg.address.take k) ++ msg.address.getD k 0 ::
            (msg.address.drop (k + 1) ++ msg.message) := by
      conv_lhs => rw [list_decomp msg.address k hk]
      simp
    have e2 : msg.hmacs.tail.flatten ++ (msg.address.take k ++ b' :: msg.address.drop (k + 1))
          ++ msg.message
        = (msg.hmacs.tail.flatten ++ msg.address.take k) ++ b' ::
            (msg.address.drop (k + 1) ++ msg.message) := by
      simp
    have hL : serverExpectedMac priv msg
        = (hmacDigest ((keyMaterialOf (priv * msg.ec_public_key % gOrder)).take 16)
            ((msg.hmacs.tail.flatten ++ msg.address.take k) ++ msg.address.getD k 0 ::
              (msg.address.drop (k + 1) ++ msg.message))).take 20 := by
      unfold serverExpectedMac
      rw [e1]
    have hR : serverExpectedMac priv
        ⟨msg.ec_public_key, msg.hmacs, msg.address.take k ++ b' :: msg.address.drop (k + 1),
          msg.message⟩
        = (hmacDigest ((keyMaterialOf (priv * msg.ec_public_key % gOrder)).take 16)
            ((msg.hmacs.tail.flatten ++ msg.address.take k) ++ b' ::
              (msg.address.drop (k + 1) ++ msg.message))).take 20 := by
      unfold serverExpectedMac
      rw [show (⟨msg.ec_public_key, msg.hmacs,
        msg.address.take k ++ b' :: msg.address.drop (k + 1),
        msg.message⟩ : NHopMixMessage).hmacs = msg.hmacs from rfl]
      rw [e2]
    rw [hL, hR]
    exact mac20_ne _ _ _ _ _ hbk hb' (Ne.symm hne)
  · intro k b' hk hbk hb' hne
    refine serverN_macFail priv fin _ hp hnil h20 hA (by rw [tamper_length _ _ _ hk]; exact hM) ?_
    show msg.hmacs.headD [] ≠ serverExpectedMac priv
      ⟨msg.ec_public_key, msg.hmacs, msg.address,
        msg.message.take k ++ b' :: msg.message.drop (k + 1)⟩
    rw [hmac0]
    have e1 : msg.hmacs.tail.flatten ++ msg.address ++ msg.message
        = (msg.hmacs.tail.flatten ++ msg.address ++ msg.message.take k) ++
            msg.message.getD k 0 :: msg.message.drop (k + 1) := by
      conv_lhs => rw [list_decomp msg.message k hk]
      simp
    have e2 : msg.hmacs.tail.flatten ++ msg.address ++
          (msg.message.take k ++ b' :: msg.message.drop (k + 1))
        = (msg.hmacs.tail.flatten ++ msg.address ++ msg.message.take k) ++ b' ::
            msg.message.drop (k + 1) := by
      simp
    have hL : serverExpectedMac priv msg
        = (hmacDigest ((keyMaterialOf (priv * msg.ec_public_key % gOrder)).take 16)
            ((msg.hmacs.tail.flatten ++ msg.address ++ msg.message.take k) ++
              msg.message.getD k 0 :: msg.message.drop (k + 1))).take 20 := by
      unfold serverExpectedMac
      rw [e1]
    have hR : serverExpectedMac priv
        ⟨msg.ec_public_key, msg.hmacs, msg.address,
          msg.message.take k ++ b' :: msg.message.drop (k + 1)⟩
        = (hmacDigest ((keyMaterialOf (priv * msg.ec_public_key % gOrder)).take 16)
            ((msg.hmacs.tail.flatten ++ msg.address ++ msg.message.take k) ++ b' ::
              msg.message.drop (k + 1))).take 20 := by
      unfold serverExpectedMac
      rw [show (⟨msg.ec_public_key, msg.hmacs, msg.address,
        msg.message.take k ++ b' :: msg.message.drop (k + 1)⟩ : NHopMixMessage).hmacs
        = msg.hmacs from rfl]
      rw [e2]
    rw [hL, hR]
    exact mac20_ne _ _ _ _ _ hbk hb' (Ne.symm hne)

theorem map_succ_ne (l : List Nat) (hl : l ≠ []) : l.map (fun b => b + 1) ≠ l := by
  cases l with
  | nil => exact absurd rfl hl
  | cons a l =>
    intro h
    have h1 : a + 1 = a := by
      have := congrArg (fun t => t.headD 0) h
      simpa using this
    omega

theorem C6_tamper_rejected_witness :
    (serverNHopMsg 11 true ⟨exampleNMsg.ec_public_key,
        (exampleNMsg.hmacs.headD []).map (fun b => b + 1) :: exampleNMsg.hmacs.tail,
        exampleNMsg.address, exampleNMsg.message⟩).2 = .error .macFailure
    ∧ (serverNHopMsg 11 true ⟨exampleNMsg.ec_public_key, exampleNMsg.hmacs,
        exampleNMsg.address.take 0 ++ ((exampleNMsg.address.getD 0 0 + 1) % 256) ::
          exampleNMsg.address.drop 1, exampleNMsg.message⟩).2 = .error .macFailure
    ∧ (serverNHopMsg 11 true ⟨exampleNMsg.ec_public_key, exampleNMsg.hmacs,
        exampleNMsg.address,
        exampleNMsg.message.take 0 ++ ((exampleNMsg.message.getD 0 0 + 1) % 256) ::
          exampleNMsg.message.drop 1⟩).2 = .error .macFailure := by
  have h : serverNHopMsg 11 true exampleNMsg
      = ([Printed.mac (exampleWrap.hmacs.headD [])], .ok (.deliver [66] [1])) :=
    single_hop_deliver 11 5 [66] [1] (by decide) (by decide)
  have hC := C6_tamper_rejected 11 true exampleNMsg _ _ h
  have hfacts := serverN_ok_facts 11 true exampleNMsg _ _ h
  have hbA : exampleNMsg.address.getD 0 0 < 256 := by decide
  have hbM : exampleNMsg.message.getD 0 0 < 256 := by decide
  refine ⟨?_, ?_, ?_⟩
  · refine hC.1 _ ?_ ?_
    · rw [List.length_map]; exact hfacts.2.1
    · refine map_succ_ne _ ?_
      intro hnil0
      have h20 := hfacts.2.1
      rw [hnil0] at h20
      simp at h20
  · refine hC.2.1 0 _ ?_ hbA (Nat.mod_lt _ (by decide)) ?_
    · rw [hfacts.2.2.1]; decide
    · omega
  · refine hC.2.2 0 _ ?_ hbM (Nat.mod_lt _ (by decide)) ?_
    · rw [hfacts.2.2.2.1]; decide
    · omega

/-! ## Length invariants -/

theorem key_materials_from_length : ∀ (l : List Nat) (x : Nat),
    (key_materials_from x l).length = l.length
  | [], _ => rfl
  | _ :: l, x => by simp [key_materials_from, key_materials_from_length l]

theorem serverN_fwd_facts (priv : Nat) (msg : NHopMixMessage) (tr : List Printed)
    (m' : NHopMixMessage)
    (h : serverNHopMsg priv false msg = (tr, .ok (.fwd m'))) :
    m'.hmacs.length + 1 = msg.hmacs.length ∧ m'.address.length = 258
    ∧ m'.message.length = 1002 := by
  simp only [serverNHopMsg] at h
  by_cases hp : msg.ec_public_key < gOrder
  · rw [if_pos hp] at h
    rcases hh : msg.hmacs with _ | ⟨mac0, rest⟩
    · rw [hh] at h; simp at h
    · rw [hh] at h
      dsimp only at h
      by_cases hlen : mac0.length = 20 ∧ msg.address.length = 258 ∧ msg.message.length = 1002
      · rw [if_pos hlen] at h
        by_cases hmac : mac0 = (hmacDigest
            ((keyMaterialOf (priv * msg.ec_public_key % gOrder)).take 16)
            (rest.flatten ++ msg.address ++ msg.message)).take 20
        · rw [if_pos hmac, if_neg (by simp)] at h
          have hout := congrArg Prod.snd h
          simp only at hout
          have hm' := MixOut.fwd.inj (Except.ok.inj hout)
          rw [← hm']
          refine ⟨?_, ?_, ?_⟩
          · simp [encMacs_length]
          · simp [aes_length, hlen.2.1]
          · simp [aes_length, hlen.2.2]
        · rw [if_neg hmac] at h; simp at h
      · rw [if_neg hlen] at h; simp at h
  · rw [if_neg hp] at h; simp at h

/-- Claim C7: the one-hop encoded message is exactly
`point_size + 20 + 258 + 1002` bytes; an n-hop message carries exactly
one MAC entry per relay at creation; and every successful non-final
relay step removes exactly one MAC entry while keeping the address and
message fields at 258 and 1002 bytes. -/
theorem C7_lengths :
    (∀ (x pub : Nat) (addr msg : List Nat) (m : OneHopMixMessage),
        mix_client_one_hop x pub addr msg = .ok m →
        (pointExport m.ec_public_key).length + m.hmac.length + m.address.length
          + m.message.length = point_size + 20 + 258 + 1002) ∧
    (∀ (x : Nat) (pubs addr msg : List Nat) (m : NHopMixMessage),
        (mix_client_n_hop x pubs addr msg).2 = .ok m → m.hmacs.length = pubs.length) ∧
    (∀ (priv : Nat) (msg : NHopMixMessage) (tr : List Printed) (m' : NHopMixMessage),
        serverNHopMsg priv false msg = (tr, .ok (.fwd m')) →
        m'.hmacs.length + 1 = msg.hmacs.length ∧ m'.address.length = 258
          ∧ m'.message.length = 1002) := by
  refine ⟨?_, ?_, fun priv msg tr m' h => serverN_fwd_facts priv msg tr m' h⟩
  · intro x pub addr msg m h
    unfold mix_client_one_hop at h
    by_cases hc : pub < gOrder ∧ addr.length ≤ 256 ∧ msg.length ≤ 1000
    · rw [if_pos hc] at h
      have hm := Except.ok.inj h
      rw [← hm]
      simp [pointExport, leBytes_length, List.length_take, hmacDigest_length, aes_length,
        packH_length, point_size]
    · rw [if_neg hc] at h; simp at h
  · intro x pubs addr msg m h
    unfold mix_client_n_hop at h
    by_cases hc : addr.length ≤ 256 ∧ msg.length ≤ 1000
    · rw [if_pos hc] at h
      dsimp only at h
      have hm := Except.ok.inj h
      rw [← hm]
      simp [clientLayersT_fst, clientLayers_hmacs_length, key_materials_from_length,
        baseState]
    · rw [if_neg hc] at h; simp at h

theorem C7_lengths_witness :
    ((pointExport exampleOneMsg.ec_public_key).length + exampleOneMsg.hmac.length
        + exampleOneMsg.address.length + exampleOneMsg.message.length
      = point_size + 20 + 258 + 1002)
    ∧ exampleNMsg.hmacs.length = ([11 * gen % gOrder] : List Nat).length
    ∧ (exampleSt2.hmacs.length + 1 = exampleMsg2.hmacs.length
        ∧ exampleSt2.address_cipher.length = 258 ∧ exampleSt2.message_cipher.length = 1002) := by
  have hc1 : mix_client_one_hop 5 (11 * gen % gOrder) [1] [2] = .ok exampleOneMsg := by
    obtain ⟨m, hm⟩ := mix_client_one_hop_isOk 5 (11 * gen % gOrder) [1] [2]
      (mod_gOrder_lt _) (by decide) (by decide)
    unfold exampleOneMsg
    rw [hm]
    rfl
  have hc2 : (mix_client_n_hop 5 [11 * gen % gOrder] [66] [1]).2 = .ok exampleNMsg :=
    mix_client_n_hop_ok 5 [11 * gen % gOrder] [66] [1] (by decide) (by decide)
  have hst2A : exampleSt2.address_cipher.length = 258 := by
    unfold exampleSt2
    rw [clientLayers_address_length]
    exact baseState_address_length [66] [1]
  have hst2M : exampleSt2.message_cipher.length = 1002 := by
    unfold exampleSt2
    rw [clientLayers_message_length]
    exact baseState_message_length [66] [1]
  have hpeel := peel_step 11 5 (keyMaterialOf (5 * (11 * gen % gOrder) % gOrder)) rfl
    false exampleSt2 hst2A hst2M
  refine ⟨C7_lengths.1 5 (11 * gen % gOrder) [1] [2] exampleOneMsg hc1,
    C7_lengths.2.1 5 [11 * gen % gOrder] [66] [1] exampleNMsg hc2, ?_⟩
  have h3 := C7_lengths.2.2 11 exampleMsg2
    [Printed.mac ((clientLayer (keyMaterialOf (5 * (11 * gen % gOrder) % gOrder))
      exampleSt2).hmacs.headD [])]
    ⟨bytesToNat ((keyMaterialOf (5 * (11 * gen % gOrder) % gOrder)).drop 48)
        * (5 * gen % gOrder) % gOrder,
      exampleSt2.hmacs, exampleSt2.address_cipher, exampleSt2.message_cipher⟩
    hpeel
  exact ⟨h3.1, hst2A, hst2M⟩

/-! ## The print trace -/

theorem C8_print_counterexample :
    (serverNHopMsg 11 true exampleNMsg).1 = [Printed.mac (exampleNMsg.hmacs.headD [])]
    ∧ [Printed.mac (exampleNMsg.hmacs.headD [])] ≠ ([] : List Printed) := by
  have h : serverNHopMsg 11 true exampleNMsg
      = ([Printed.mac (exampleWrap.hmacs.headD [])], .ok (.deliver [66] [1])) :=
    single_hop_deliver 11 5 [66] [1] (by decide) (by decide)
  exact ⟨by rw [h]; rfl, by simp⟩

/-- Claim C8, amended: encoding and decoding are pure except for the
debug `print` statements of the n-hop functions: whenever the n-hop
decoder accepts a message it writes exactly one item to standard output
— the 20-byte expected MAC, which equals the message's first MAC entry
(key- and MAC-derived data) — and the n-hop encoder writes one hop
counter per layer followed by the complete MAC list of the message it
returns.  No other output is produced, and the result is a pure function
of the arguments. -/
theorem C8_print_trace :
    (∀ (priv : Nat) (fin : Bool) (msg : NHopMixMessage) (tr : List Printed) (out : MixOut),
        serverNHopMsg priv fin msg = (tr, .ok out) →
        tr = [Printed.mac (msg.hmacs.headD [])]) ∧
    (∀ (x : Nat) (pubs addr msg : List Nat), addr.length ≤ 256 → msg.length ≤ 1000 →
        (mix_client_n_hop x pubs addr msg).1
          = (List.range pubs.length).map Printed.num ++
            [Printed.macList (clientLayers (key_materials_from x pubs)
              (baseState addr msg)).hmacs]) := by
  constructor
  · intro priv fin msg tr out h
    obtain ⟨_, _, _, _, _, hmac0, htr⟩ := serverN_ok_facts priv fin msg tr out h
    rw [htr, hmac0]
  · intro x pubs addr msg hA hM
    unfold mix_client_n_hop
    rw [if_pos ⟨hA, hM⟩]
    dsimp only
    rw [clientLayersT_snd, clientLayersT_fst, key_materials_from_length]

theorem C8_print_trace_witness :
    (serverNHopMsg 11 true exampleNMsg).1 = [Printed.mac (exampleNMsg.hmacs.headD [])]
    ∧ (mix_client_n_hop 5 [11 * gen % gOrder] [66] [1]).1
      = (List.range ([11 * gen % gOrder] : List Nat).length).map Printed.num ++
        [Printed.macList exampleWrap.hmacs] := by
  have h : serverNHopMsg 11 true exampleNMsg
      = ([Printed.mac (exampleWrap.hmacs.headD [])], .ok (.deliver [66] [1])) :=
    single_hop_deliver 11 5 [66] [1] (by decide) (by decide)
  have h' : serverNHopMsg 11 true exampleNMsg
      = ((serverNHopMsg 11 true exampleNMsg).1, .ok (.deliver [66] [1])) := by rw [h]
  exact ⟨C8_print_trace.1 11 true exampleNMsg _ _ h',
    C8_print_trace.2 5 [11 * gen % gOrder] [66] [1] (by decide) (by decide)⟩

/-! ## Absent public-key validation in the n-hop client -/

/-- Claim C9: `mix_client_n_hop` never validates the relay public keys
(the assert is commented out): it succeeds for every list of point-like
inputs as long as the address and message fit, while
`mix_client_one_hop` rejects an invalid public key with an assertion
failure. -/
theorem C9_no_pubkey_validation :
    (∀ (x : Nat) (public_keys addr msg : List Nat),
        addr.length ≤ 256 → msg.length ≤ 1000 →
        ∃ m, (mix_client_n_hop x public_keys addr msg).2 = .ok m) ∧
    (∀ (x pub : Nat) (addr msg : List Nat), ¬ pub < gOrder →
        mix_client_one_hop x pub addr msg = .error .assertFailed) := by
  constructor
  · intro x pubs addr msg hA hM
    unfold mix_client_n_hop
    rw [if_pos ⟨hA, hM⟩]
    exact ⟨_, rfl⟩
  · intro x pub addr msg hp
    unfold mix_client_one_hop
    rw [if_neg (fun hcond => hp hcond.1)]

theorem C9_no_pubkey_validation_witness :
    (∃ m, (mix_client_n_hop 5 [gOrder, gOrder + 7] [1] [2]).2 = .ok m)
    ∧ mix_client_one_hop 5 gOrder [1] [2] = .error .assertFailed :=
  ⟨C9_no_pubkey_validation.1 5 [gOrder, gOrder + 7] [1] [2] (by decide) (by decide),
    C9_no_pubkey_validation.2 5 gOrder [1] [2] (by decide)⟩

/-! ## Truncation bounds at final delivery -/

theorem exceptMap_ok_mem {α β : Type} (f : α → Except PyError β) :
    ∀ (xs : List α) (ys : List β), exceptMap f xs = .ok ys →
      ∀ y ∈ ys, ∃ x, f x = .ok y := by
  intro xs
  induction xs with
  | nil =>
    intro ys h y hy
    simp only [exceptMap] at h
    rw [← Except.ok.inj h] at hy
    simp at hy
  | cons x xs ih =>
    intro ys h y hy
    simp only [exceptMap] at h
    rcases hfx : f x with e | y0 <;> rw [hfx] at h
    · simp at h
    · rcases hem : exceptMap f xs with e | ys' <;> rw [hem] at h
      · simp at h
      · rw [← Except.ok.inj h] at hy
        rcases List.mem_cons.mp hy with h1 | h1
        · exact ⟨x, by rw [hfx, h1]⟩
        · exact ih ys' hem y h1

theorem serverOneHop_ok_bounds (priv : Nat) (msg : OneHopMixMessage)
    (p : List Nat × List Nat) (h : serverOneHopMsg priv msg = .ok p) :
    p.1.length ≤ 256 ∧ p.2.length ≤ 1000 := by
  unfold serverOneHopMsg at h
  by_cases hc : msg.ec_public_key < gOrder ∧ msg.hmac.length = 20 ∧
      msg.address.length = 258 ∧ msg.message.length = 1002
  · rw [if_pos hc] at h
    by_cases hmac : msg.hmac = (hmacDigest
        ((keyMaterialOf (priv * msg.ec_public_key % gOrder)).take 16)
        (msg.address ++ msg.message)).take 20
    · rw [if_pos hmac] at h
      rw [← Except.ok.inj h]
      constructor <;> (simp [unpackH, List.length_take]; try omega)
    · rw [if_neg hmac] at h; simp at h
  · rw [if_neg hc] at h; simp at h

theorem serverN_deliver_bounds (priv : Nat) (fin : Bool) (msg : NHopMixMessage)
    (tr : List Printed) (a m : List Nat)
    (h : serverNHopMsg priv fin msg = (tr, .ok (.deliver a m))) :
    a.length ≤ 256 ∧ m.length ≤ 1000 := by
  simp only [serverNHopMsg] at h
  by_cases hp : msg.ec_public_key < gOrder
  · rw [if_pos hp] at h
    rcases hh : msg.hmacs with _ | ⟨mac0, rest⟩
    · rw [hh] at h; simp at h
    · rw [hh] at h
      dsimp only at h
      by_cases hlen : mac0.length = 20 ∧ msg.address.length = 258 ∧ msg.message.length = 1002
      · rw [if_pos hlen] at h
        by_cases hmac : mac0 = (hmacDigest
            ((keyMaterialOf (priv * msg.ec_public_key % gOrder)).take 16)
            (rest.flatten ++ msg.address ++ msg.message)).take 20
        · rw [if_pos hmac] at h
          cases fin
          · rw [if_neg (by simp)] at h
            have := congrArg Prod.snd h
            simp at this
          · rw [if_pos rfl] at h
            obtain ⟨ha, hm2⟩ := MixOut.deliver.inj (Except.ok.inj (congrArg Prod.snd h))
            rw [← ha, ← hm2]
            constructor <;> (simp [unpackH, List.length_take]; try omega)
        · rw [if_neg hmac] at h; simp at h
      · rw [if_neg hlen] at h; simp at h
  · rw [if_neg hp] at h; simp at h

/-- Claim C10: every successfully decoded final output is produced by
truncating the decrypted fixed-size field to its declared length prefix,
so the emitted address is at most 256 bytes and the payload at most 1000
bytes, with no error raised even if the decrypted prefix exceeds the
field size. -/
theorem C10_truncation :
    (∀ (priv : Nat) (msgs : List OneHopMixMessage) (outs : List (List Nat × List Nat)),
        mix_server_one_hop priv msgs = .ok outs →
        ∀ p ∈ outs, p.1.length ≤ 256 ∧ p.2.length ≤ 1000) ∧
    (∀ (priv : Nat) (fin : Bool) (msg : NHopMixMessage) (tr : List Printed)
        (a m : List Nat), serverNHopMsg priv fin msg = (tr, .ok (.deliver a m)) →
        a.length ≤ 256 ∧ m.length ≤ 1000) := by
  constructor
  · intro priv msgs outs h p hp
    unfold mix_server_one_hop at h
    rcases hem : exceptMap (serverOneHopMsg priv) msgs with e | raw <;> rw [hem] at h
    · simp at h
    · rw [← Except.ok.inj h] at hp
      have hmem : p ∈ raw := ((List.mergeSort_perm raw pairLe).mem_iff).mp hp
      obtain ⟨x, hx⟩ := exceptMap_ok_mem (serverOneHopMsg priv) msgs raw hem p hmem
      exact serverOneHop_ok_bounds priv x p hx
  · intro priv fin msg tr a m h
    exact serverN_deliver_bounds priv fin msg tr a m h

theorem C10_truncation_witness :
    (∀ p ∈ ([([1], [2])] : List (List Nat × List Nat)),
        p.1.length ≤ 256 ∧ p.2.length ≤ 1000)
    ∧ (([66] : List Nat).length ≤ 256 ∧ ([1] : List Nat).length ≤ 1000) := by
  constructor
  · refine C10_truncation.1 11
      ((mix_client_one_hop 6 (11 * gen % gOrder) [1] [2]).toOption.toList) [([1], [2])] ?_
    obtain ⟨m, hm⟩ := mix_client_one_hop_isOk 6 (11 * gen % gOrder) [1] [2]
      (mod_gOrder_lt _) (by decide) (by decide)
    rw [hm]
    simp only [Except.toOption, Option.toList]
    unfold mix_server_one_hop
    simp only [exceptMap, serverOneHop_client 11 6 [1] [2] m (by decide) (by decide) hm]
    rw [List.mergeSort_singleton]
  · exact C10_truncation.2 11 true exampleNMsg
      [Printed.mac (exampleWrap.hmacs.headD [])] [66] [1]
      (single_hop_deliver 11 5 [66] [1] (by decide) (by decide))

end MixNet
